import Mathlib

/-!
Verification of the YSCAM scam-detection engine against its specification.

The definitions below are a shallow embedding of the Python sources:
  * `src/detect_message.py` — rule engine (`has_high_risk_signals`),
    classifier wrapper (`get_prediction`) and the fusion/override step;
  * `src/api.py` and `src/file_api.py` — the same override step;
  * `src/data_preparation.py` — the text normalizer
    (`DataPreparation.preprocess_text`, `safe_tokenize`).

Strings are modelled as `List Char` (Lean 4.14 `String` wraps `List Char`),
machine floats as `ℚ` (the constants 0.75 and 0.85 compared by the code are
exact), and Python regular expressions as explicit matchers that mirror the
leftmost-match, greedy/lazy backtracking semantics of `re.sub` / `re.search`
for the concrete patterns appearing in the sources.  Character classes
(`\w`, `\d`, `\s`) are modelled on their ASCII core; Python's Unicode `\w`
additionally keeps non-ASCII letters, which no claim here depends on.
-/

/-! ## Character classes (ASCII core of Python `\w`, `\d`, `\s`) -/

/-- ASCII decimal digit, the core of Python regex `\d` / `[0-9]`. -/
def isDigitChar (c : Char) : Bool := 48 ≤ c.toNat && c.toNat ≤ 57

/-- ASCII lowercase letter. -/
def isLowerAlpha (c : Char) : Bool := 97 ≤ c.toNat && c.toNat ≤ 122

/-- Python `\s`: space, tab, newline, carriage return, vertical tab, form feed. -/
def isSpaceChar (c : Char) : Bool :=
  c.toNat = 32 || c.toNat = 9 || c.toNat = 10 || c.toNat = 13 || c.toNat = 11 || c.toNat = 12

/-- Python `\S` (non-whitespace). -/
def nonSpace (c : Char) : Bool := !isSpaceChar c

/-- ASCII core of Python regex `\w`: letters, digits, underscore. -/
def isWordChar (c : Char) : Bool :=
  (65 ≤ c.toNat && c.toNat ≤ 90) || isLowerAlpha c || isDigitChar c || c.toNat = 95

/-- Models the third-party `emoji.replace_emoji` used at
`src/data_preparation.py:158` by codepoint ranges; the only property the
proofs use is that emoji are non-ASCII codepoints. -/
def isEmojiChar (c : Char) : Bool :=
  (0x1F000 ≤ c.toNat && c.toNat ≤ 0x1FAFF) || (0x2600 ≤ c.toNat && c.toNat ≤ 0x27BF) ||
  (0x2B00 ≤ c.toNat && c.toNat ≤ 0x2BFF) || (0xFE00 ≤ c.toNat && c.toNat ≤ 0xFE0F)

/-- The apostrophe character (codepoint 39), built by codepoint so that it can
appear inside embedded source strings. -/
def apos : Char := Char.ofNat 39

/-- One-character apostrophe string. -/
def aposS : String := String.mk [apos]

/-- Python `pattern in text` substring test on character lists. -/
def isSubstr (pat : List Char) : List Char → Bool
  | [] => pat.isPrefixOf []
  | c :: t => pat.isPrefixOf (c :: t) || isSubstr pat t

/-- Python `str.lower()` (ASCII case folding, as `Char.toLower`). -/
def lowerList (s : List Char) : List Char := s.map Char.toLower

/-! ## Decision fusion (src/detect_message.py:136-139, src/api.py:216-219,
src/file_api.py:119-122 — the same three lines at each call site) -/

/-- The override step shared verbatim by `detect_message.main`,
`api.detect_scam` and `file_api`: if rule signals fired, the classifier said
"real", and its confidence is below 0.75, flip to "scam" and raise the
confidence to `max confidence 0.85`; otherwise pass both through. -/
def fuseDecision (risk_signals : List String) (label : String) (confidence : ℚ) :
    String × ℚ :=
  if risk_signals ≠ [] ∧ label = "real" ∧ confidence < 0.75 then
    ("scam", max confidence 0.85)
  else (label, confidence)

/-! ## Classifier wrapper (src/detect_message.py:76-83)

The trained model is scikit-learn `LogisticRegression`.  Its binary
`predict` returns class 1 exactly when the decision score is positive,
which for the logistic link is equivalent to `P(class 1) > 1/2`; its
`predict_proba` returns the pair `(P(real), P(scam))` with the two entries
summing to 1.  We therefore parameterise by `pScam = P(scam)`. -/

/-- scikit-learn binary `LogisticRegression.predict`: class 1 iff the decision
score is strictly positive, equivalently `P(scam) > 1/2`. -/
def sk_predict (pScam : ℚ) : Nat := if 1/2 < pScam then 1 else 0

/-- scikit-learn `predict_proba` row for classes `[0, 1] = [real, scam]`. -/
def predict_proba (pScam : ℚ) : ℚ × ℚ := (1 - pScam, pScam)

/-- `label = "scam" if prediction[0] == 1 else "real"` (src/detect_message.py:83). -/
def prediction_label (pScam : ℚ) : String :=
  if sk_predict pScam = 1 then "scam" else "real"

/-- `confidence_score = max(confidence[0])` (src/detect_message.py:80). -/
def confidence_score (pScam : ℚ) : ℚ :=
  max (predict_proba pScam).1 (predict_proba pScam).2

/-! ## Feature attribution (src/detect_message.py:86-110) -/

/-- Descending order on absolute importance; `sorted(key=abs, reverse=True)`
keeps `a` before `b` exactly when `|b.2| ≤ |a.2|` fails to demote it. -/
def attrRel (a b : String × ℚ) : Prop := |b.2| ≤ |a.2|

instance : DecidableRel attrRel := fun a b => inferInstanceAs (Decidable (|b.2| ≤ |a.2|))

instance : IsTotal (String × ℚ) attrRel :=
  ⟨fun a b => le_total |b.2| |a.2|⟩

instance : IsTrans (String × ℚ) attrRel :=
  ⟨fun _ _ _ hab hbc => le_trans hbc hab⟩

/-- The `(word, coefficient*value)` pairs for indices with positive feature
value, in vocabulary order, guarding `idx < len(feature_names)` as the code
does (src/detect_message.py:92-101).  TF-IDF values are nonnegative, so the
code's `input_vector > 0` test selects exactly the nonzero entries. -/
def feature_importance_pairs (coef : List ℚ) (names : List String) (vec : List ℚ) :
    List (String × ℚ) :=
  (List.range vec.length).filterMap fun i =>
    if 0 < vec.getD i 0 ∧ i < names.length then
      some (names.getD i "", coef.getD i 0 * vec.getD i 0)
    else none

/-- Python's `sorted(..., key=abs, reverse=True)` is a stable descending sort;
`List.insertionSort attrRel` implements exactly that (equal keys keep their
original, vocabulary, order). -/
def sorted_features (coef : List ℚ) (names : List String) (vec : List ℚ) :
    List (String × ℚ) :=
  List.insertionSort attrRel (feature_importance_pairs coef names vec)

/-- `sorted(...)[:5]` (src/detect_message.py:104-108). -/
def top_features (coef : List ℚ) (names : List String) (vec : List ℚ) :
    List (String × ℚ) :=
  (sorted_features coef names vec).take 5

/-! ## Risk-signal rule engine (src/detect_message.py:20-64)

Each regex in `high_risk_patterns` is an alternation of sequences built from
literal alternatives, bounded any-character windows `.{0,n}` (not matching
newline) and digit runs `[0-9]{k,}`.  `matchItems` decides whether such a
sequence matches a prefix of the text; `searchSeq` is `re.search` over all
start positions. -/

/-- One element of a rule pattern. -/
inductive Item where
  | lit (alts : List (List Char))
  | win (n : Nat)
  | digits (k : Nat)

/-- Does the item sequence match some prefix of `s`? -/
def matchItems : List Item → List Char → Bool
  | [], _ => true
  | Item.lit alts :: rest, s =>
      alts.any (fun a => a.isPrefixOf s && matchItems rest (s.drop a.length))
  | Item.win n :: rest, s =>
      (List.range (n+1)).any (fun j =>
        decide (j ≤ s.length) && (s.take j).all (fun c => !(c = '\n')) &&
        matchItems rest (s.drop j))
  | Item.digits k :: rest, s =>
      (List.range (s.length+1)).any (fun j =>
        decide (k ≤ j) && (s.take j).all isDigitChar && matchItems rest (s.drop j))

/-- `re.search` of one alternative sequence: match at any start position. -/
def searchSeq (seq : List Item) (s : List Char) : Bool :=
  (List.range (s.length + 1)).any (fun i => matchItems seq (s.drop i))

/-- `re.search` of a full pattern (alternation of sequences). -/
def searchPat (p : List (List Item)) (s : List Char) : Bool :=
  p.any (fun seq => searchSeq seq s)

/-- Literal alternatives from strings. -/
def litsOf (l : List String) : List (List Char) := l.map String.toList

/-- `(job|work|hiring|position|opening).{0,30}(pay|fee|rs|₹|payment).{0,30}([0-9]{3,})` -/
def pat1 : List (List Item) :=
  [[Item.lit (litsOf ["job", "work", "hiring", "position", "opening"]), Item.win 30,
    Item.lit (litsOf ["pay", "fee", "rs", "₹", "payment"]), Item.win 30, Item.digits 3]]

/-- `(work from home|earn from home).{0,30}(₹|rs).?\d{3,}` -/
def pat2 : List (List Item) :=
  [[Item.lit (litsOf ["work from home", "earn from home"]), Item.win 30,
    Item.lit (litsOf ["₹", "rs"]), Item.win 1, Item.digits 3]]

/-- `(job|work|position).{0,30}(no interview|without interview)` -/
def pat3 : List (List Item) :=
  [[Item.lit (litsOf ["job", "work", "position"]), Item.win 30,
    Item.lit (litsOf ["no interview", "without interview"])]]

/-- `(send|share|submit).{0,30}(aadhar|pan|account|bank details|password|otp)` -/
def pat4 : List (List Item) :=
  [[Item.lit (litsOf ["send", "share", "submit"]), Item.win 30,
    Item.lit (litsOf ["aadhar", "pan", "account", "bank details", "password", "otp"])]]

/-- `(registration fee|apply fee|pay.{0,5}(for|to).{0,10}(register|registration))` -/
def pat5 : List (List Item) :=
  [[Item.lit (litsOf ["registration fee"])],
   [Item.lit (litsOf ["apply fee"])],
   [Item.lit (litsOf ["pay"]), Item.win 5, Item.lit (litsOf ["for", "to"]), Item.win 10,
    Item.lit (litsOf ["register", "registration"])]]

/-- `pay.{0,5}(₹|rs).{0,5}[0-9]{3,}` -/
def pat6 : List (List Item) :=
  [[Item.lit (litsOf ["pay"]), Item.win 5, Item.lit (litsOf ["₹", "rs"]), Item.win 5,
    Item.digits 3]]

/-- Explanation of pattern 1 (src/detect_message.py:35). -/
def expl1 : String :=
  "Job offers requiring payment for registration, assessment, or application are almost always scams"

/-- Explanation of pattern 2 (src/detect_message.py:39). -/
def expl2 : String :=
  "Promises of high earnings from work-at-home jobs without specific skills are typical scam tactics"

/-- Explanation of pattern 3 (src/detect_message.py:43). -/
def expl3 : String :=
  "Legitimate companies don" ++ aposS ++ "t offer jobs without some form of assessment"

/-- Explanation of pattern 4 (src/detect_message.py:47). -/
def expl4 : String :=
  "Legitimate organizations don" ++ aposS ++
  "t request sensitive personal documents or financial details via messages"

/-- Explanation of pattern 5 (src/detect_message.py:51). -/
def expl5 : String := "Requiring payment for registration is a common scam tactic"

/-- Explanation of pattern 6 (src/detect_message.py:55). -/
def expl6 : String := "Requesting specific payment amounts in job or loan messages is a red flag"

/-- The ordered pattern table `high_risk_patterns` (src/detect_message.py:32-56). -/
def ruleTable : List ((List (List Item)) × String) :=
  [(pat1, expl1), (pat2, expl2), (pat3, expl3), (pat4, expl4), (pat5, expl5), (pat6, expl6)]

/-- `legitimate_context` word list (src/detect_message.py:25). -/
def legitPhrases : List (List Char) :=
  litsOf ["university portal", "official portal", "careers portal", "college", "university"]

/-- `any(word in text_lower for word in [...])` (src/detect_message.py:25). -/
def legitimate_context (tl : List Char) : Bool :=
  legitPhrases.any (fun w => isSubstr w tl)

/-- The accumulation loop over `high_risk_patterns` (src/detect_message.py:59-62). -/
def scanLoop : List ((List (List Item)) × String) → List Char → List String
  | [], _ => []
  | pe :: rest, tl => (if searchPat pe.1 tl then [pe.2] else []) ++ scanLoop rest tl

/-- `has_high_risk_signals` (src/detect_message.py:20-64): lowercase the text,
return `[]` on legitimate context, otherwise collect one explanation per
matching pattern in table order.  A total function: it never raises. -/
def has_high_risk_signals (text : String) : List String :=
  let tl := lowerList text.toList
  if legitimate_context tl then [] else scanLoop ruleTable tl

/-- The Scenario D input from the specification. -/
def scenarioD : String := "work from home, earn ₹5000 daily, no interview required"

/-- Final label of the pipeline on `text` when the classifier reports
`P(scam) = pScam` (src/detect_message.py:131-139). -/
def finalLabel (pScam : ℚ) (text : String) : String :=
  (fuseDecision (has_high_risk_signals text) (prediction_label pScam)
    (confidence_score pScam)).1

/-! ## Text normalizer (src/data_preparation.py:17-29, 63-85, 106-195)

Each `re.sub(pattern, repl, text)` is modelled by `subAll matcher repl`:
scan left to right, at each position ask the matcher for the length of the
(backtracking-first) match there, splice in the replacement and continue
after the match.  The matcher receives the previous character so that `\b`
word boundaries can be decided.  Fuel (initially `length + 1`, strictly
larger than the character count, and matcher lengths are ≥ 1) keeps the
recursion structural so that terms evaluate inside the kernel. -/

/-- Generic leftmost non-overlapping substitution, fuelled. -/
def subAllF (m : Option Char → List Char → Option Nat) (repl : List Char) :
    Nat → Option Char → List Char → List Char
  | 0, _, s => s
  | _+1, _, [] => []
  | fuel+1, p, c :: rest =>
    match m p (c :: rest) with
    | some n =>
      if 1 ≤ n then
        repl ++ subAllF m repl fuel (((c :: rest).take n).getLastD c) ((c :: rest).drop n)
      else c :: subAllF m repl fuel (some c) rest
    | none => c :: subAllF m repl fuel (some c) rest

/-- `re.sub(matcher, repl, s)`. -/
def subAll (m : Option Char → List Char → Option Nat) (repl : List Char)
    (s : List Char) : List Char :=
  subAllF m repl (s.length + 1) none s

/-- First defined alternative (Python regex alternation order). -/
def firstSome (a b : Option Nat) : Option Nat :=
  match a with
  | some n => some n
  | none => b

/-- One branch of the URL regex: literal prefix then `\S+` (at least one
non-space character, consumed greedily). -/
def urlTry (pre : List Char) (s : List Char) : Option Nat :=
  if pre.isPrefixOf s then
    let run := ((s.drop pre.length).takeWhile nonSpace).length
    if 1 ≤ run then some (pre.length + run) else none
  else none

/-- Matcher for `https?://\S+|www\.\S+` (src/data_preparation.py:126);
`https?` greedily prefers the `s`. -/
def urlM (_ : Option Char) (s : List Char) : Option Nat :=
  firstSome (urlTry "https://".toList s)
    (firstSome (urlTry "http://".toList s) (urlTry "www.".toList s))

/-- Matcher for `\S+@\S+` (src/data_preparation.py:129): a match at this
position is the whole maximal non-space run, provided the run has an `@`
that is neither its first nor its last character. -/
def emailM (_ : Option Char) (s : List Char) : Option Nat :=
  let run := s.takeWhile nonSpace
  if ((run.drop 1).dropLast).contains '@' then some run.length else none

/-- `Option Char` is a word character (for `\b`). -/
def optWord : Option Char → Bool
  | none => false
  | some c => isWordChar c

/-- Word boundary `\b` between the previous character and the next one. -/
def boundaryB (p : Option Char) (c? : Option Char) : Bool := optWord p != optWord c?

/-- Exactly `k` digits present at offset `off`. -/
def digitsAt (s : List Char) (off k : Nat) : Bool :=
  ((s.drop off).take k).length == k && ((s.drop off).take k).all isDigitChar

/-- `\d{10}\b` at offset `off`. -/
def tenDigitsAt (s : List Char) (off : Nat) : Bool :=
  digitsAt s off 10 && !(optWord ((s.drop off).drop 10).head?)

/-- One greedy candidate of `\+\d{1,3}[- ]?` followed by `\d{10}\b`
(`d` digits after the `+`, separator preferred). -/
def phoneGroupCand (s : List Char) (d : Nat) : Option Nat :=
  if digitsAt s 1 d then
    let sepc := (s.drop (1+d)).head?
    if (sepc = some '-' || sepc = some ' ') && tenDigitsAt s (2+d) then some (2+d+10)
    else if tenDigitsAt s (1+d) then some (1+d+10)
    else none
  else none

/-- First phone alternative `\b(?:\+\d{1,3}[- ]?)?\d{10}\b`, in the greedy
backtracking order of the optional group and of `\d{1,3}`. -/
def phoneAlt1 (p : Option Char) (s : List Char) : Option Nat :=
  if boundaryB p s.head? then
    match s with
    | '+' :: _ =>
      firstSome (phoneGroupCand s 3)
        (firstSome (phoneGroupCand s 2)
          (firstSome (phoneGroupCand s 1)
            (if tenDigitsAt s 0 then some 10 else none)))
    | _ => if tenDigitsAt s 0 then some 10 else none
  else none

/-- Member of the class `[-.\s]`. -/
def isSepPSV (c? : Option Char) : Bool :=
  match c? with
  | none => false
  | some c => c = '-' || c = '.' || isSpaceChar c

/-- One lazy candidate of `\d{3}[-.\s]??\d{3}[-.\s]??\d{4}\b` with separator
widths `a` and `b` (each 0 or 1). -/
def phoneAlt2Cand (s : List Char) (a b : Nat) : Bool :=
  digitsAt s 0 3 &&
  (a == 0 || isSepPSV ((s.drop 3).head?)) &&
  digitsAt s (3+a) 3 &&
  (b == 0 || isSepPSV ((s.drop (6+a)).head?)) &&
  digitsAt s (6+a+b) 4 &&
  !(optWord ((s.drop (10+a+b)).head?))

/-- Second phone alternative, lazy separators tried shortest-first. -/
def phoneAlt2 (p : Option Char) (s : List Char) : Option Nat :=
  if boundaryB p s.head? then
    if phoneAlt2Cand s 0 0 then some 10
    else if phoneAlt2Cand s 0 1 then some 11
    else if phoneAlt2Cand s 1 0 then some 11
    else if phoneAlt2Cand s 1 1 then some 12
    else none
  else none

/-- Matcher for the phone-number regex (src/data_preparation.py:132). -/
def phoneM (p : Option Char) (s : List Char) : Option Nat :=
  firstSome (phoneAlt1 p s) (phoneAlt2 p s)

/-- Matcher for a literal pattern (the contraction patterns are literals). -/
def litM (pat : List Char) (_ : Option Char) (s : List Char) : Option Nat :=
  if pat.isPrefixOf s then some pat.length else none

/-- The ordered contraction table (src/data_preparation.py:135-146);
Python dicts iterate in insertion order. -/
def contractionTable : List (List Char × List Char) :=
  [ (['w','o','n',apos,'t'], "will not".toList),
    (['c','a','n',apos,'t'], "cannot".toList),
    (['n',apos,'t'], " not".toList),
    ([apos,'r','e'], " are".toList),
    ([apos,'s'], " is".toList),
    ([apos,'d'], " would".toList),
    ([apos,'l','l'], " will".toList),
    ([apos,'t'], " not".toList),
    ([apos,'v','e'], " have".toList),
    ([apos,'m'], " am".toList) ]

/-- `for pattern, repl in contraction_patterns.items(): text = re.sub(...)`
(src/data_preparation.py:148-149). -/
def applyContractions (s : List Char) : List Char :=
  contractionTable.foldl (fun acc pe => subAll (litM pe.1) pe.2 acc) s

/-- Currency symbol class `[$₹€£¥]`. -/
def isCurrencySym (c : Char) : Bool := c = '$' || c = '₹' || c = '€' || c = '£' || c = '¥'

/-- Length of the maximal leading digit run (`\d+`, greedy). -/
def digitRunLen (s : List Char) : Nat := (s.takeWhile isDigitChar).length

/-- Second currency alternative `(\d+([,.]\d+)?)[$₹€£¥]`; shrinking a greedy
digit run leaves a digit next, which can satisfy neither `[,.]` nor the
symbol class, so no backtracking into the runs is needed. -/
def currencyAlt2 (s : List Char) : Option Nat :=
  let d1 := digitRunLen s
  if 1 ≤ d1 then
    match s.drop d1 with
    | [] => none
    | a :: rest2 =>
      if (a = ',' || a = '.') && 1 ≤ digitRunLen rest2 then
        let d2 := digitRunLen rest2
        match rest2.drop d2 with
        | [] => none
        | b :: _ => if isCurrencySym b then some (d1 + 1 + d2 + 1) else none
      else if isCurrencySym a then some (d1 + 1) else none
  else none

/-- Matcher for `[$₹€£¥](\d+([,.]\d+)?)|(\d+([,.]\d+)?)[$₹€£¥]`
(src/data_preparation.py:152). -/
def currencyM (_ : Option Char) (s : List Char) : Option Nat :=
  match s with
  | [] => none
  | c :: rest =>
    if isCurrencySym c then
      let d1 := digitRunLen rest
      if 1 ≤ d1 then
        match rest.drop d1 with
        | [] => some (1 + d1)
        | sep :: rest2 =>
          if (sep = ',' || sep = '.') && 1 ≤ digitRunLen rest2 then
            some (1 + d1 + 1 + digitRunLen rest2)
          else some (1 + d1)
      else currencyAlt2 (c :: rest)
    else currencyAlt2 (c :: rest)

/-- Python `str.split()`: maximal non-space runs, fuelled for structural
recursion (`wsSplit` supplies fuel `length + 1`). -/
def wsSplitF : Nat → List Char → List (List Char)
  | 0, _ => []
  | _+1, [] => []
  | fuel+1, c :: rest =>
    if isSpaceChar c then wsSplitF fuel rest
    else ((c :: rest).takeWhile nonSpace) :: wsSplitF fuel ((c :: rest).dropWhile nonSpace)

/-- Python `str.split()` on whitespace. -/
def wsSplit (s : List Char) : List (List Char) := wsSplitF (s.length + 1) s

/-- Python `" ".join(tokens)`. -/
def joinSp : List (List Char) → List Char
  | [] => []
  | [w] => w
  | w :: ws => w ++ ' ' :: joinSp ws

/-- `re.sub(r'([.,!?;:])', r' \1 ', text)` from `safe_tokenize`
(src/data_preparation.py:27): pad each of the six punctuation marks with
spaces. -/
def padPunct (s : List Char) : List Char :=
  s.flatMap fun c =>
    if c = '.' || c = ',' || c = '!' || c = '?' || c = ';' || c = ':' then [' ', c, ' ']
    else [c]

/-- The fallback "simple rule-based lemmatization"
`lambda w: w[:-1] if w.endswith('s') else w` (src/data_preparation.py:189). -/
def simpleLemma (w : List Char) : List Char :=
  if w.getLast? = some 's' then w.dropLast else w

/-- The built-in minimal stopword set (src/data_preparation.py:73-78). -/
def fallbackStopChars : List (List Char) :=
  litsOf ["a", "an", "the", "and", "or", "but", "if", "then",
          "to", "of", "for", "in", "on", "at", "by", "with",
          "about", "as", "is", "am", "are", "was", "were", "be",
          "been", "being", "have", "has", "had", "do", "does",
          "did", "will", "would", "shall", "should", "can", "could",
          "may", "might", "must", "this", "that", "these", "those"]

/-- Availability of the external NLTK resources: `none` selects the built-in
fallback path of the source (simple split tokenizer, minimal stopword set,
suffix-stripping lemmatizer); `some f` models an available external resource
of unspecified behavior. -/
structure Resources where
  tokenizeOpt : Option (List Char → List (List Char))
  stopwordsOpt : Option (List (List Char))
  lemmatizeOpt : Option (List Char → List Char)

/-- All NLTK resources unavailable: every fallback in force. -/
def fallbackRes : Resources := ⟨none, none, none⟩

/-- The stopword set in force (src/data_preparation.py:67-78). -/
def stopList (res : Resources) : List (List Char) :=
  res.stopwordsOpt.getD fallbackStopChars

/-- The lemmatizer in force (src/data_preparation.py:182-190). -/
def lemmaFn (res : Resources) : List Char → List Char :=
  res.lemmatizeOpt.getD simpleLemma

/-- A Python value passed to `preprocess_text`: a string or anything else. -/
inductive PyInput where
  | str (s : String)
  | nonStr

/-- The body of `DataPreparation.preprocess_text` on a string
(src/data_preparation.py:122-195), stage by stage in source order. -/
def preprocessList (res : Resources) (removeStop lemm : Bool) (s : List Char) : List Char :=
  let t1 := lowerList s
  let t2 := subAll urlM [] t1
  let t3 := subAll emailM [] t2
  let t4 := subAll phoneM [] t3
  let t5 := applyContractions t4
  let t6 := subAll currencyM [] t5
  let t7 := t6.filter (fun c => isWordChar c || isSpaceChar c)
  let t8 := t7.filter (fun c => !isEmojiChar c)
  let t9 := joinSp (wsSplit t8)
  let toks :=
    match res.tokenizeOpt with
    | some f => f t9
    | none => wsSplit (padPunct t9)
  let toks2 := if removeStop then toks.filter (fun w => !((stopList res).contains w)) else toks
  let toks3 := if lemm then toks2.map (lemmaFn res) else toks2
  joinSp toks3

/-- `DataPreparation.preprocess_text` (src/data_preparation.py:106-195):
non-string input short-circuits to the empty string (line 119-120). -/
def preprocess_text (res : Resources) (inp : PyInput) (removeStop lemm : Bool) : String :=
  match inp with
  | PyInput.nonStr => ""
  | PyInput.str t => String.mk (preprocessList res removeStop lemm t.toList)

/-- The whitespace-separated words of the lowercased source text. -/
def sourceWords (raw : String) : List (List Char) := wsSplit (lowerList raw.toList)

/-- The tokens of the normalizer's output. -/
def outputTokens (res : Resources) (raw : String) : List (List Char) :=
  wsSplit (preprocess_text res (PyInput.str raw) true true).toList

/-- The source invariant claimed by the specification: every output token is
a substring of the (lowercased) source or the lemma of a source word. -/
def sourceInvariantHolds (res : Resources) (raw : String) : Prop :=
  ∀ tok ∈ outputTokens res raw,
    isSubstr tok (lowerList raw.toList) = true ∨
    ∃ w ∈ sourceWords raw, lemmaFn res w = tok

/-- Lowercase-letter-or-space character, the alphabet on which every
stripping stage of the normalizer is provably inert. -/
def goodLA (c : Char) : Bool := isLowerAlpha c || isSpaceChar c

/-- ASCII letter of either case. -/
def isAsciiAlpha (c : Char) : Bool := (65 ≤ c.toNat && c.toNat ≤ 90) || isLowerAlpha c

/-! ## Theorems -/

/-- Claim C1: for every input, if the signal list is non-empty, the
classifier label is "real" and the confidence is strictly below 0.75, the
fused decision is "scam" with confidence `max confidence 0.85` (hence at
least 0.85); in every other case label and confidence pass through
unchanged. -/
theorem C1_override_rule (signals : List String) (label : String) (conf : ℚ) :
    (signals ≠ [] ∧ label = "real" ∧ conf < 0.75 →
      fuseDecision signals label conf = ("scam", max conf 0.85) ∧
      (0.85 : ℚ) ≤ (fuseDecision signals label conf).2) ∧
    (¬(signals ≠ [] ∧ label = "real" ∧ conf < 0.75) →
      fuseDecision signals label conf = (label, conf)) := by
  constructor
  · intro h
    rw [fuseDecision, if_pos h]
    exact ⟨rfl, le_max_right _ _⟩
  · intro h
    rw [fuseDecision, if_neg h]

/-- Witness for C1: the override fires on a borderline "real" call and is
inert when the signal list is empty. -/
theorem C1_override_rule_witness :
    (fuseDecision ["sig"] "real" (1/2)).1 = "scam" ∧
    fuseDecision [] "real" (1/2) = ("real", 1/2) := by
  constructor
  · rw [((C1_override_rule ["sig"] "real" (1/2)).1
      ⟨by simp, rfl, by norm_num⟩).1]
  · exact (C1_override_rule [] "real" (1/2)).2 (by simp)

/-- Claim C10: fusion never lowers confidence — the fused confidence is the
classifier confidence unless the override fires, in which case it is
`max confidence 0.85`; in all cases it is at least the input confidence. -/
theorem C10_fusion_monotone (signals : List String) (label : String) (conf : ℚ) :
    conf ≤ (fuseDecision signals label conf).2 ∧
    (fuseDecision signals label conf).2 =
      (if signals ≠ [] ∧ label = "real" ∧ conf < 0.75 then max conf 0.85 else conf) := by
  rw [fuseDecision]
  split
  · exact ⟨le_max_left _ _, rfl⟩
  · exact ⟨le_refl _, rfl⟩

/-- Counterexample to claim C4 as stated: at the exact tie
`P(scam) = P(real) = 1/2` the code's label is "real", not "scam" —
scikit-learn's binary `predict` returns class 1 only for a strictly
positive decision score. -/
theorem C4_tie_counterexample :
    (predict_proba (1/2)).1 ≤ (predict_proba (1/2)).2 ∧
    prediction_label (1/2) = "real" := by
  constructor
  · norm_num [predict_proba]
  · norm_num [prediction_label, sk_predict]

/-- Claim C4, amended: the label is "scam" iff `P(scam)` is strictly greater
than `P(real)` (the tie goes to "real"); the confidence is
`max P(scam) P(real)`; the two probabilities sum to 1. -/
theorem C4_decision_rule_amended (p : ℚ) :
    (prediction_label p = "scam" ↔ (predict_proba p).1 < (predict_proba p).2) ∧
    confidence_score p = max (predict_proba p).2 (predict_proba p).1 ∧
    (predict_proba p).1 + (predict_proba p).2 = 1 := by
  refine ⟨?_, max_comm _ _, by simp [predict_proba]⟩
  show prediction_label p = "scam" ↔ 1 - p < p
  rw [prediction_label, sk_predict]
  by_cases h : (1/2 : ℚ) < p
  · rw [if_pos h]
    constructor
    · intro _; linarith
    · intro _; rfl
  · rw [if_neg h]
    push_neg at h
    constructor
    · intro hcontr; exact absurd hcontr (by decide)
    · intro hlt; exfalso; linarith

/-- The accumulation loop over the pattern table is the order-preserving
filter of the table by pattern match, projected to explanations. -/
theorem scanLoop_eq_filter_map (table : List ((List (List Item)) × String)) (tl : List Char) :
    scanLoop table tl = (table.filter (fun pe => searchPat pe.1 tl)).map Prod.snd := by
  induction table with
  | nil => rfl
  | cons pe rest ih =>
    rw [scanLoop, List.filter_cons]
    by_cases h : searchPat pe.1 tl
    · rw [if_pos h, if_pos h, List.map_cons, ih]; rfl
    · rw [if_neg h, if_neg (by simpa using h), ih]; rfl

/-- Claim C2: any text whose lowercased form contains one of the five
legitimate-context phrases produces an empty signal list, whatever other
patterns would match. -/
theorem C2_suppression_precedence (text : String)
    (h : legitimate_context (lowerList text.toList) = true) :
    has_high_risk_signals text = [] := by
  rw [has_high_risk_signals]
  simp only [h, if_true]

/-- Witness for C2: the example from the specification, which also contains
the otherwise-matching "registration fee" pattern, yields no signals. -/
theorem C2_suppression_precedence_witness :
    has_high_risk_signals "official university portal, pay registration fee of 500" = [] :=
  C2_suppression_precedence _ (by decide)

/-- Claim C6: on text without a legitimate-context phrase the scan is the
order-preserving filter of the six-entry pattern table — each matching
pattern contributes exactly its explanation, in table order; non-matching
patterns contribute nothing; no match yields the empty list.  (The embedded
scan is a total function, so it cannot raise.) -/
theorem C6_scan_contract (text : String)
    (h : legitimate_context (lowerList text.toList) = false) :
    ruleTable.length = 6 ∧
    has_high_risk_signals text =
      (ruleTable.filter (fun pe => searchPat pe.1 (lowerList text.toList))).map Prod.snd ∧
    (has_high_risk_signals text).Sublist (ruleTable.map Prod.snd) ∧
    (∀ e, e ∈ has_high_risk_signals text ↔
      ∃ p, (p, e) ∈ ruleTable ∧ searchPat p (lowerList text.toList) = true) := by
  have hscan : has_high_risk_signals text =
      (ruleTable.filter (fun pe => searchPat pe.1 (lowerList text.toList))).map Prod.snd := by
    rw [has_high_risk_signals]
    simp only [h, if_false]
    exact scanLoop_eq_filter_map _ _
  refine ⟨rfl, hscan, ?_, ?_⟩
  · rw [hscan]
    exact (List.filter_sublist _).map Prod.snd
  · intro e
    rw [hscan]
    constructor
    · intro he
      rcases List.mem_map.mp he with ⟨pe, hpe, hsnd⟩
      rcases List.mem_filter.mp hpe with ⟨hmem, hmatch⟩
      refine ⟨pe.1, ?_, by simpa using hmatch⟩
      rw [← hsnd, Prod.mk.eta]
      exact hmem
    · rintro ⟨p, hmem, hmatch⟩
      exact List.mem_map.mpr ⟨(p, e), List.mem_filter.mpr ⟨hmem, by simpa using hmatch⟩, rfl⟩

/-- Witness for C6: a benign text matches no pattern and yields the empty
list. -/
theorem C6_scan_contract_witness : has_high_risk_signals "hello there" = [] := by
  rw [(C6_scan_contract "hello there" (by decide)).2.1]
  decide

/-- On the Scenario D input, patterns 1 (job/payment), 2 (work-from-home
earnings) and 3 (no interview) all match and the others do not. -/
theorem scenarioD_scan_eval :
    has_high_risk_signals scenarioD = [expl1, expl2, expl3] := by decide

/-- Counterexample to claim C9 as stated: the scan does return at least two
signals, but the final label is not forced to "scam" — when the classifier
reports P(scam) = 1/5 (a confident "real" at 80%), the override condition
`confidence < 0.75` fails and the final label is "real". -/
theorem C9_label_counterexample :
    2 ≤ (has_high_risk_signals scenarioD).length ∧
    finalLabel (1/5) scenarioD = "real" := by
  constructor
  · rw [scenarioD_scan_eval]; simp
  · rw [finalLabel, scenarioD_scan_eval]
    have hl : prediction_label (1/5) = "real" := by
      rw [prediction_label, sk_predict, if_neg (by norm_num)]
    have hc : confidence_score (1/5) = 4/5 := by
      rw [confidence_score, predict_proba]
      show max (1 - 1/5 : ℚ) (1/5) = 4/5
      rw [max_eq_left (by norm_num)]
      norm_num
    rw [hl, hc, fuseDecision, if_neg]
    rintro ⟨-, -, hlt⟩
    norm_num at hlt

/-- Claim C9, amended: on the Scenario D input the rule engine returns
exactly three signals — the job/payment, work-from-home/earnings and
no-interview patterns all match — and the final label is "scam" for every
classifier outcome except a confident "real" (P(scam) ≤ 1/4, i.e. the
classifier saying "real" with confidence ≥ 0.75). -/
theorem C9_scenarioD_amended :
    has_high_risk_signals scenarioD = [expl1, expl2, expl3] ∧
    expl2 ∈ has_high_risk_signals scenarioD ∧
    expl3 ∈ has_high_risk_signals scenarioD ∧
    2 ≤ (has_high_risk_signals scenarioD).length ∧
    ∀ p : ℚ, finalLabel p scenarioD = if 1/4 < p then "scam" else "real" := by
  refine ⟨scenarioD_scan_eval, ?_, ?_, ?_, ?_⟩
  · rw [scenarioD_scan_eval]; simp
  · rw [scenarioD_scan_eval]; simp
  · rw [scenarioD_scan_eval]; simp
  · intro p
    rw [finalLabel, scenarioD_scan_eval]
    by_cases hp : (1/2 : ℚ) < p
    · have hl : prediction_label p = "scam" := by
        rw [prediction_label, sk_predict, if_pos hp]
        decide
      rw [hl, fuseDecision, if_neg, if_pos (by linarith)]
      rintro ⟨-, habs, -⟩
      exact absurd habs (by decide)
    · have hl : prediction_label p = "real" := by
        rw [prediction_label, sk_predict, if_neg hp]
        rfl
      push_neg at hp
      have hc : confidence_score p = 1 - p := by
        rw [confidence_score, predict_proba]
        exact max_eq_left (show p ≤ 1 - p by linarith)
      by_cases hq : (1/4 : ℚ) < p
      · rw [hl, hc, fuseDecision, if_pos ⟨by simp, rfl, by norm_num; linarith⟩, if_pos hq]
      · rw [hl, hc, fuseDecision, if_neg, if_neg hq]
        rintro ⟨-, -, hlt⟩
        norm_num at hlt
        push_neg at hq
        linarith

/-- Claim C3: the normalizer is total — every non-string input yields the
empty string for every resource configuration and option setting; every
string input yields a result; and with every linguistic resource unavailable
(the built-in fallbacks in force) empty, punctuation-only and emoji-only
inputs are handled without error. -/
theorem C3_normalizer_totality :
    (∀ res removeStop lemm, preprocess_text res PyInput.nonStr removeStop lemm = "") ∧
    (∀ res removeStop lemm s, ∃ out, preprocess_text res (PyInput.str s) removeStop lemm = out) ∧
    preprocess_text fallbackRes (PyInput.str "") true true = "" ∧
    preprocess_text fallbackRes (PyInput.str "!!! ??? :)") true true = "" ∧
    preprocess_text fallbackRes (PyInput.str "🎉🚀💰") true true = "" := by
  exact ⟨fun _ _ _ => rfl, fun _ _ _ s => ⟨_, rfl⟩, by decide, by decide, by decide⟩

/-- Inserting into a list moves past only strictly larger absolute
importances, so the sublist at any fixed absolute importance is preserved. -/
theorem filter_orderedInsert_abs (k : ℚ) (x : String × ℚ) (l : List (String × ℚ)) :
    (List.orderedInsert attrRel x l).filter (fun p => decide (|p.2| = k)) =
      if |x.2| = k then x :: l.filter (fun p => decide (|p.2| = k))
      else l.filter (fun p => decide (|p.2| = k)) := by
  induction l with
  | nil =>
    rw [List.orderedInsert_nil]
    by_cases hk : |x.2| = k
    · rw [if_pos hk]; simp [List.filter, hk]
    · rw [if_neg hk]; simp [List.filter, hk]
  | cons y ys ih =>
    rw [List.orderedInsert]
    by_cases hr : attrRel x y
    · rw [if_pos hr]
      by_cases hk : |x.2| = k
      · rw [if_pos hk]; simp [List.filter_cons, hk]
      · rw [if_neg hk]; simp [List.filter_cons, hk]
    · rw [if_neg hr]
      have hxy : |x.2| < |y.2| := lt_of_not_le hr
      have hyx : |y.2| ≠ |x.2| := ne_of_gt hxy
      rw [List.filter_cons]
      by_cases hk : |x.2| = k
      · have hyk : ¬(|y.2| = k) := fun hcontr => hyx (hk ▸ hcontr)
        rw [if_neg (by simp [hyk]), ih, if_pos hk, if_pos hk, List.filter_cons,
          if_neg (by simp [hyk])]
      · by_cases hyk : |y.2| = k
        · rw [if_pos (by simp [hyk]), ih, if_neg hk, if_neg hk, List.filter_cons,
            if_pos (by simp [hyk])]
        · rw [if_neg (by simp [hyk]), ih, if_neg hk, if_neg hk, List.filter_cons,
            if_neg (by simp [hyk])]

/-- Stability of the descending sort: the elements of any fixed absolute
importance appear in the sorted list exactly as in the input. -/
theorem filter_insertionSort_abs (k : ℚ) (l : List (String × ℚ)) :
    (List.insertionSort attrRel l).filter (fun p => decide (|p.2| = k)) =
      l.filter (fun p => decide (|p.2| = k)) := by
  induction l with
  | nil => rfl
  | cons x xs ih =>
    rw [List.insertionSort, filter_orderedInsert_abs, List.filter_cons]
    by_cases hk : |x.2| = k
    · rw [if_pos hk, if_pos (by simp [hk]), ih]
    · rw [if_neg hk, if_neg (by simp [hk]), ih]

/-- Claim C5: attributions have length at most 5, are sorted by descending
absolute importance, each is `coefficient[i] * value[i]` for an index with
nonzero feature value, every nonzero index yields its pair, and within any
tie on absolute importance the returned order is the vocabulary order (the
filter at each absolute value is a sublist of the vocabulary-ordered pair
list).  The hypotheses state the model-artifact contract the code relies
on: coefficient vector, vocabulary and feature vector have equal length
(Python would raise `IndexError` otherwise), vocabulary terms are distinct
(the code accumulates into a dict keyed by term), and TF-IDF values are
nonnegative (so the code's `> 0` test means "nonzero"). -/
theorem C5_attribution_contract (coef : List ℚ) (names : List String) (vec : List ℚ)
    (_hc : coef.length = vec.length) (hn : names.length = vec.length)
    (_hnd : names.Nodup) (hv : ∀ x ∈ vec, 0 ≤ x) :
    (top_features coef names vec).length ≤ 5 ∧
    List.Pairwise attrRel (top_features coef names vec) ∧
    (∀ p ∈ top_features coef names vec, ∃ i < vec.length,
        names.getD i "" = p.1 ∧ vec.getD i 0 ≠ 0 ∧ p.2 = coef.getD i 0 * vec.getD i 0) ∧
    (∀ i, i < vec.length → vec.getD i 0 ≠ 0 →
        (names.getD i "", coef.getD i 0 * vec.getD i 0) ∈ feature_importance_pairs coef names vec) ∧
    (∀ k : ℚ, ((top_features coef names vec).filter (fun p => decide (|p.2| = k))).Sublist
        ((feature_importance_pairs coef names vec).filter (fun p => decide (|p.2| = k)))) := by
  refine ⟨?_, ?_, ?_, ?_, ?_⟩
  · rw [top_features, List.length_take]
    exact min_le_left _ _
  · exact List.Pairwise.sublist (List.take_sublist 5 _)
      (List.sorted_insertionSort attrRel _)
  · intro p hp
    have hp2 : p ∈ sorted_features coef names vec := List.take_subset 5 _ hp
    have hp3 : p ∈ feature_importance_pairs coef names vec :=
      ((List.perm_insertionSort attrRel _).mem_iff).mp hp2
    rcases List.mem_filterMap.mp hp3 with ⟨i, hi, hif⟩
    have hiv : i < vec.length := List.mem_range.mp hi
    by_cases hcnd : 0 < vec.getD i 0 ∧ i < names.length
    · rw [if_pos hcnd] at hif
      have h := Option.some.inj hif
      refine ⟨i, hiv, ?_, ne_of_gt hcnd.1, ?_⟩
      · rw [← h]
      · rw [← h]
    · rw [if_neg hcnd] at hif
      exact absurd hif (by simp)
  · intro i hiv hne
    have hmem : vec.getD i 0 ∈ vec := by
      rw [List.getD_eq_getElem vec 0 hiv]
      exact List.getElem_mem hiv
    have hpos : 0 < vec.getD i 0 := lt_of_le_of_ne (hv _ hmem) (Ne.symm hne)
    exact List.mem_filterMap.mpr
      ⟨i, List.mem_range.mpr hiv, by rw [if_pos ⟨hpos, hn ▸ hiv⟩]⟩
  · intro k
    have h1 := (List.take_sublist 5 (sorted_features coef names vec)).filter
      (fun p => decide (|p.2| = k))
    rw [top_features]
    have h2 : (sorted_features coef names vec).filter (fun p => decide (|p.2| = k)) =
        (feature_importance_pairs coef names vec).filter (fun p => decide (|p.2| = k)) := by
      rw [sorted_features, filter_insertionSort_abs]
    exact h2 ▸ h1

/-- Witness for C5 on a concrete three-term vocabulary: `|-3| > |2|`, so the
second term is returned first even though the first has a positive
importance. -/
theorem C5_attribution_contract_witness :
    (top_features [2, -3, 1] ["a", "b", "c"] [1, 1, 0]).length ≤ 5 ∧
    List.Pairwise attrRel (top_features [2, -3, 1] ["a", "b", "c"] [1, 1, 0]) := by
  have h := C5_attribution_contract [2, -3, 1] ["a", "b", "c"] [1, 1, 0]
    rfl rfl (by decide) (by decide)
  exact ⟨h.1, h.2.1⟩

/-- Counterexample to claim C7 as stated: contraction expansion introduces
tokens absent from the source.  The normalizer maps "can't" to "cannot",
which is neither a substring of the source nor the lemma of the single
source word "can't". -/
theorem C7_source_invariant_counterexample :
    preprocess_text fallbackRes (PyInput.str (String.mk ['c', 'a', 'n', apos, 't'])) true true
      = "cannot" ∧
    ¬ sourceInvariantHolds fallbackRes (String.mk ['c', 'a', 'n', apos, 't']) := by
  constructor
  · decide
  · unfold sourceInvariantHolds
    decide

/-- Counterexample to claim C8 as stated: the fallback suffix-stripping
lemmatizer re-stems on every pass, so outputs with a trailing-'s' token are
not fixed points — `normalize "boss" = "bos"` but `normalize "bos" = "bo"`. -/
theorem C8_idempotence_counterexample :
    preprocess_text fallbackRes (PyInput.str "boss") true true = "bos" ∧
    preprocess_text fallbackRes (PyInput.str "bos") true true = "bo" ∧
    preprocess_text fallbackRes
        (PyInput.str (preprocess_text fallbackRes (PyInput.str "boss") true true)) true true ≠
      preprocess_text fallbackRes (PyInput.str "boss") true true := by
  exact ⟨by decide, by decide, by decide⟩

/-! ### No-op lemmas: on text made only of lowercase letters and whitespace
every stripping stage of the normalizer is the identity. -/

/-- A fuelled substitution whose matcher never fires is the identity. -/
theorem subAllF_eq_self (m : Option Char → List Char → Option Nat) (repl : List Char)
    (good : Char → Bool)
    (hm : ∀ p t, t ≠ [] → t.all good = true → m p t = none) :
    ∀ fuel p s, s.all good = true → subAllF m repl fuel p s = s := by
  intro fuel
  induction fuel with
  | zero => intro p s _; rfl
  | succ f ih =>
    intro p s hs
    match s with
    | [] => rfl
    | c :: rest =>
      rw [subAllF, hm p (c :: rest) (by simp) hs]
      rw [ih (some c) rest (by simp_all)]

/-- Substitution with a never-firing matcher is the identity. -/
theorem subAll_eq_self (m : Option Char → List Char → Option Nat) (repl : List Char)
    (good : Char → Bool)
    (hm : ∀ p t, t ≠ [] → t.all good = true → m p t = none)
    (s : List Char) (hs : s.all good = true) : subAll m repl s = s :=
  subAllF_eq_self m repl good hm _ none s hs

/-- A prefix of an all-`good` list is all-`good`. -/
theorem all_of_isPrefixOf (good : Char → Bool) (pat t : List Char)
    (hpre : pat.isPrefixOf t = true) (hall : t.all good = true) :
    pat.all good = true := by
  rw [List.all_eq_true] at hall ⊢
  exact fun c hc => hall c ((List.isPrefixOf_iff_prefix.mp hpre).subset hc)

/-- If the pattern contains a non-`good` character it cannot prefix an
all-`good` list. -/
theorem isPrefixOf_eq_false (good : Char → Bool) (pat t : List Char)
    (hbad : pat.all good = false) (hall : t.all good = true) :
    pat.isPrefixOf t = false := by
  cases hpre : pat.isPrefixOf t with
  | false => rfl
  | true => exact absurd (all_of_isPrefixOf good pat t hpre hall) (by simp [hbad])

/-- Digits are not lowercase letters or whitespace. -/
theorem digit_not_goodLA (c : Char) (h : isDigitChar c = true) : goodLA c = false := by
  simp only [isDigitChar, Bool.and_eq_true, decide_eq_true_eq] at h
  simp only [goodLA, isLowerAlpha, isSpaceChar, Bool.or_eq_false_iff, Bool.and_eq_false_iff,
    Bool.or_eq_false_iff, decide_eq_false_iff_not, not_le]
  omega

/-- On all-`goodLA` text there is no leading digit run. -/
theorem digitRunLen_eq_zero (t : List Char) (hall : t.all goodLA = true) :
    digitRunLen t = 0 := by
  match t with
  | [] => rfl
  | c :: rest =>
    rw [digitRunLen, List.takeWhile_cons]
    have hc : goodLA c = true := by simp_all
    have : isDigitChar c = false := by
      cases hd : isDigitChar c with
      | false => rfl
      | true => rw [digit_not_goodLA c hd] at hc; exact absurd hc (by simp)
    rw [this]
    rfl

/-- No `k ≥ 1` digits can sit anywhere inside all-`goodLA` text. -/
theorem digitsAt_eq_false (t : List Char) (off k : Nat) (hk : 1 ≤ k)
    (hall : t.all goodLA = true) : digitsAt t off k = false := by
  rw [digitsAt]
  cases hlen : (((t.drop off).take k).length == k) with
  | false => rfl
  | true =>
    rw [Bool.true_and]
    cases hdig : ((t.drop off).take k).all isDigitChar with
    | false => rfl
    | true =>
      exfalso
      have hne : (t.drop off).take k ≠ [] := by
        intro hcontr
        rw [hcontr] at hlen
        simp at hlen
        omega
      match hseg : (t.drop off).take k, hne with
      | c :: _, _ =>
        have hcd : isDigitChar c = true := by
          rw [hseg] at hdig
          simp [List.all_cons] at hdig
          exact hdig.1
        have hct : c ∈ t := by
          have : c ∈ (t.drop off).take k := by rw [hseg]; simp
          exact List.drop_subset off t (List.take_subset k _ this)
        have : goodLA c = true := by
          rw [List.all_eq_true] at hall
          exact hall c hct
        rw [digit_not_goodLA c hcd] at this
        exact absurd this (by simp)

/-- A URL branch needs its literal prefix, which contains `:` or `.`. -/
theorem urlTry_eq_none (pre t : List Char) (hbad : pre.all goodLA = false)
    (hall : t.all goodLA = true) : urlTry pre t = none := by
  rw [urlTry, isPrefixOf_eq_false goodLA pre t hbad hall]
  rfl

/-- The URL matcher never fires on lowercase-letters-and-space text. -/
theorem urlM_eq_none : ∀ p t, t ≠ [] → t.all goodLA = true → urlM p t = none := by
  intro p t _ hall
  rw [urlM, urlTry_eq_none _ t (by decide) hall, urlTry_eq_none _ t (by decide) hall,
    urlTry_eq_none _ t (by decide) hall]
  rfl

/-- The email matcher needs an `@` inside the leading non-space run. -/
theorem emailM_eq_none : ∀ p t, t ≠ [] → t.all goodLA = true → emailM p t = none := by
  intro p t _ hall
  rw [emailM]
  have hat : (((t.takeWhile nonSpace).drop 1).dropLast).contains '@' = false := by
    cases hc : (((t.takeWhile nonSpace).drop 1).dropLast).contains '@' with
    | false => rfl
    | true =>
      exfalso
      have hmem : '@' ∈ ((t.takeWhile nonSpace).drop 1).dropLast := by
        rw [List.contains_iff_exists_mem_beq] at hc
        rcases hc with ⟨a, ha, hbeq⟩
        obtain rfl : ('@' : Char) = a := by simpa using hbeq
        exact ha
      have : '@' ∈ t :=
        (List.takeWhile_prefix nonSpace).subset
          (List.drop_subset 1 _ ((List.dropLast_sublist _).subset hmem))
      rw [List.all_eq_true] at hall
      have := hall '@' this
      exact absurd this (by decide)
  rw [hat]
  rfl

/-- One greedy phone candidate needs digits after the `+`. -/
theorem phoneGroupCand_eq_none (t : List Char) (d : Nat) (hd : 1 ≤ d)
    (hall : t.all goodLA = true) : phoneGroupCand t d = none := by
  rw [phoneGroupCand, digitsAt_eq_false t 1 d hd hall]
  rfl

/-- The first phone alternative never fires on lowercase-letters-and-space
text. -/
theorem phoneAlt1_eq_none (p : Option Char) (t : List Char)
    (hall : t.all goodLA = true) : phoneAlt1 p t = none := by
  have hten : tenDigitsAt t 0 = false := by
    rw [tenDigitsAt, digitsAt_eq_false t 0 10 (by omega) hall]
    rfl
  rw [phoneAlt1]
  split
  · split
    · rename_i heq
      rw [hten] at heq
      exact absurd heq (by simp)
    · rfl
  · rfl
  intro tail heq
  rw [heq] at hall
  simp only [List.all_cons, Bool.and_eq_true] at hall
  exact absurd hall.1 (by decide)

/-- The second phone alternative needs three leading digits. -/
theorem phoneAlt2_eq_none (p : Option Char) (t : List Char)
    (hall : t.all goodLA = true) : phoneAlt2 p t = none := by
  have h3 : digitsAt t 0 3 = false := digitsAt_eq_false t 0 3 (by omega) hall
  have hcand : ∀ a b, phoneAlt2Cand t a b = false := by
    intro a b
    rw [phoneAlt2Cand, h3]
    rfl
  rw [phoneAlt2]
  by_cases hb : boundaryB p t.head? = true
  · rw [if_pos hb, hcand, hcand, hcand, hcand]
    rfl
  · rw [if_neg hb]

/-- The phone matcher never fires on lowercase-letters-and-space text. -/
theorem phoneM_eq_none : ∀ p t, t ≠ [] → t.all goodLA = true → phoneM p t = none := by
  intro p t _ hall
  rw [phoneM, phoneAlt1_eq_none p t hall, phoneAlt2_eq_none p t hall]
  rfl

/-- A literal matcher whose pattern has a non-`goodLA` character never fires
on all-`goodLA` text. -/
theorem litM_eq_none (pat : List Char) (hbad : pat.all goodLA = false) :
    ∀ p t, t ≠ [] → t.all goodLA = true → litM pat p t = none := by
  intro p t _ hall
  rw [litM, isPrefixOf_eq_false goodLA pat t hbad hall]
  rfl

/-- Every contraction pattern contains an apostrophe. -/
theorem contraction_pats_bad : ∀ pe ∈ contractionTable, pe.1.all goodLA = false := by
  decide

/-- Contraction expansion is the identity on lowercase-letters-and-space
text. -/
theorem applyContractions_eq_self (s : List Char) (hs : s.all goodLA = true) :
    applyContractions s = s := by
  rw [applyContractions]
  have hgen : ∀ (table : List (List Char × List Char)),
      (∀ pe ∈ table, pe.1.all goodLA = false) →
      List.foldl (fun acc pe => subAll (litM pe.1) pe.2 acc) s table = s := by
    intro table
    induction table with
    | nil => intro _; rfl
    | cons pe rest ih =>
      intro hbad
      rw [List.foldl_cons,
        subAll_eq_self _ _ goodLA (litM_eq_none pe.1 (hbad pe (by simp))) s hs]
      exact ih (fun q hq => hbad q (by simp [hq]))
  exact hgen contractionTable contraction_pats_bad

/-- The second currency alternative needs a leading digit run. -/
theorem currencyAlt2_eq_none (t : List Char) (hall : t.all goodLA = true) :
    currencyAlt2 t = none := by
  rw [currencyAlt2, digitRunLen_eq_zero t hall]
  rfl

/-- The currency matcher never fires on lowercase-letters-and-space text. -/
theorem currencyM_eq_none : ∀ p t, t ≠ [] → t.all goodLA = true → currencyM p t = none := by
  intro p t _ hall
  match t with
  | [] => rfl
  | c :: rest =>
    rw [currencyM]
    have hc : goodLA c = true := by simp_all
    have hsym : isCurrencySym c = false := by
      cases hcs : isCurrencySym c with
      | false => rfl
      | true =>
        exfalso
        rw [isCurrencySym] at hcs
        rcases Bool.or_eq_true_iff.mp hcs with h | h
        · rcases Bool.or_eq_true_iff.mp h with h | h
          · rcases Bool.or_eq_true_iff.mp h with h | h
            · rcases Bool.or_eq_true_iff.mp h with h | h
              · rw [show c = '$' from by simpa using h] at hc
                exact absurd hc (by decide)
              · rw [show c = '₹' from by simpa using h] at hc
                exact absurd hc (by decide)
            · rw [show c = '€' from by simpa using h] at hc
              exact absurd hc (by decide)
          · rw [show c = '£' from by simpa using h] at hc
            exact absurd hc (by decide)
        · rw [show c = '¥' from by simpa using h] at hc
          exact absurd hc (by decide)
    rw [hsym, if_neg (show ¬(false = true) by simp)]
    exact currencyAlt2_eq_none (c :: rest) hall

/-- `wsSplitF` ignores fuel on the empty list. -/
theorem wsSplitF_nil : ∀ f, wsSplitF f [] = [] := by
  intro f
  cases f <;> rfl

/-- `wsSplitF` is fuel-irrelevant once the fuel covers the length. -/
theorem wsSplitF_congr : ∀ (n : Nat) (s : List Char), s.length ≤ n →
    ∀ f₁ f₂, s.length ≤ f₁ → s.length ≤ f₂ → wsSplitF f₁ s = wsSplitF f₂ s := by
  intro n
  induction n with
  | zero =>
    intro s hs f₁ f₂ _ _
    have hnil : s = [] := List.length_eq_zero.mp (Nat.le_zero.mp hs)
    rw [hnil, wsSplitF_nil, wsSplitF_nil]
  | succ m ih =>
    intro s hs f₁ f₂ h1 h2
    match s with
    | [] => rw [wsSplitF_nil, wsSplitF_nil]
    | c :: rest =>
      match f₁, f₂ with
      | 0, _ => exact absurd h1 (by simp)
      | _+1, 0 => exact absurd h2 (by simp)
      | g₁+1, g₂+1 =>
        rw [wsSplitF, wsSplitF]
        have hrest : rest.length ≤ m := by
          have := hs
          simp only [List.length_cons] at this
          omega
        by_cases hc : isSpaceChar c = true
        · rw [if_pos hc, if_pos hc]
          exact ih rest hrest g₁ g₂
            (by simp only [List.length_cons] at h1; omega)
            (by simp only [List.length_cons] at h2; omega)
        · rw [if_neg hc, if_neg hc]
          have hdrop : ((c :: rest).dropWhile nonSpace).length ≤ rest.length := by
            rw [List.dropWhile_cons, if_pos (by simp [nonSpace, hc])]
            exact (List.dropWhile_suffix nonSpace).sublist.length_le
          have hg1 : ((c :: rest).dropWhile nonSpace).length ≤ g₁ := by
            simp only [List.length_cons] at h1
            omega
          have hg2 : ((c :: rest).dropWhile nonSpace).length ≤ g₂ := by
            simp only [List.length_cons] at h2
            omega
          rw [ih _ (le_trans hdrop hrest) g₁ g₂ hg1 hg2]

/-- Splitting after a leading space skips it. -/
theorem wsSplit_cons_space (c : Char) (r : List Char) (h : isSpaceChar c = true) :
    wsSplit (c :: r) = wsSplit r := by
  show wsSplitF (r.length + 1 + 1) (c :: r) = wsSplitF (r.length + 1) r
  rw [wsSplitF, if_pos h]

/-- Splitting at a word character takes the maximal non-space run. -/
theorem wsSplit_cons_word (c : Char) (r : List Char) (h : isSpaceChar c = false) :
    wsSplit (c :: r) =
      ((c :: r).takeWhile nonSpace) :: wsSplit ((c :: r).dropWhile nonSpace) := by
  show wsSplitF (r.length + 1 + 1) (c :: r) = _
  rw [wsSplitF, if_neg (by simp [h])]
  congr 1
  have hdrop : ((c :: r).dropWhile nonSpace).length ≤ r.length := by
    rw [List.dropWhile_cons, if_pos (by simp [nonSpace, h])]
    exact (List.dropWhile_suffix nonSpace).sublist.length_le
  exact wsSplitF_congr (r.length + 1) _ (hdrop.trans (Nat.le_succ _)) _ _
    (hdrop.trans (Nat.le_succ _)) (Nat.le_succ _)

/-- `takeWhile` of an all-true list is the list. -/
theorem takeWhile_all_eq_self (P : Char → Bool) (w : List Char) (h : w.all P = true) :
    w.takeWhile P = w := by
  induction w with
  | nil => rfl
  | cons c w' ih =>
    simp only [List.all_cons, Bool.and_eq_true] at h
    rw [List.takeWhile_cons, if_pos h.1, ih h.2]

/-- `dropWhile` of an all-true list is empty. -/
theorem dropWhile_all_eq_nil (P : Char → Bool) (w : List Char) (h : w.all P = true) :
    w.dropWhile P = [] := by
  induction w with
  | nil => rfl
  | cons c w' ih =>
    simp only [List.all_cons, Bool.and_eq_true] at h
    rw [List.dropWhile_cons, if_pos h.1, ih h.2]

/-- `takeWhile`/`dropWhile` split exactly at the first failing element. -/
theorem takeWhile_append_middle (P : Char → Bool) (w : List Char) (a : Char) (t : List Char)
    (hw : w.all P = true) (ha : P a = false) :
    (w ++ a :: t).takeWhile P = w ∧ (w ++ a :: t).dropWhile P = a :: t := by
  induction w with
  | nil =>
    constructor
    · rw [List.nil_append, List.takeWhile_cons, if_neg (by simp [ha])]
    · rw [List.nil_append, List.dropWhile_cons, if_neg (by simp [ha])]
  | cons c w' ih =>
    simp only [List.all_cons, Bool.and_eq_true] at hw
    obtain ⟨h1, h2⟩ := ih hw.2
    constructor
    · rw [List.cons_append, List.takeWhile_cons, if_pos hw.1, h1]
    · rw [List.cons_append, List.dropWhile_cons, if_pos hw.1, h2]

/-- Splitting the space-join of space-free words recovers the non-empty
words, in order. -/
theorem wsSplit_joinSp : ∀ (xs : List (List Char)),
    (∀ w ∈ xs, w.all nonSpace = true) →
    wsSplit (joinSp xs) = xs.filter (fun w => !w.isEmpty) := by
  intro xs
  induction xs with
  | nil => intro _; rfl
  | cons w ws ih =>
    intro h
    cases ws with
    | nil =>
      show wsSplit w = List.filter _ [w]
      cases w with
      | nil => rfl
      | cons c w' =>
        have hcw : (c :: w').all nonSpace = true := h _ (by simp)
        have hc : isSpaceChar c = false := by
          simp only [List.all_cons, Bool.and_eq_true] at hcw
          simpa [nonSpace] using hcw.1
        rw [wsSplit_cons_word c w' hc, takeWhile_all_eq_self _ _ hcw,
          dropWhile_all_eq_nil _ _ hcw]
        rfl
    | cons x t =>
      have hx : ∀ u ∈ x :: t, u.all nonSpace = true := fun u hu => h u (by simp [hu])
      cases w with
      | nil =>
        show wsSplit (' ' :: joinSp (x :: t)) = List.filter _ ([] :: x :: t)
        rw [wsSplit_cons_space _ _ (by decide), ih hx]
        rfl
      | cons c w' =>
        have hcw : (c :: w').all nonSpace = true := h _ (by simp)
        have hc : isSpaceChar c = false := by
          simp only [List.all_cons, Bool.and_eq_true] at hcw
          simpa [nonSpace] using hcw.1
        obtain ⟨htw, hdw⟩ :=
          takeWhile_append_middle nonSpace (c :: w') ' ' (joinSp (x :: t)) hcw (by decide)
        show wsSplit ((c :: w') ++ ' ' :: joinSp (x :: t)) = List.filter _ ((c :: w') :: x :: t)
        simp only [List.cons_append] at htw hdw ⊢
        rw [wsSplit_cons_word c _ hc, htw, hdw, wsSplit_cons_space _ _ (by decide), ih hx]
        rfl

/-- Every word produced by `wsSplit` is non-empty, space-free and drawn from
the input characters. -/
theorem wsSplit_mem : ∀ (n : Nat) (s : List Char), s.length ≤ n →
    ∀ w ∈ wsSplit s, w ≠ [] ∧ w.all nonSpace = true ∧ ∀ c ∈ w, c ∈ s := by
  intro n
  induction n with
  | zero =>
    intro s hs w hw
    have hnil : s = [] := List.length_eq_zero.mp (Nat.le_zero.mp hs)
    rw [hnil] at hw
    exact absurd hw (by simp [wsSplit, wsSplitF])
  | succ m ih =>
    intro s hs w hw
    match s with
    | [] => exact absurd hw (by simp [wsSplit, wsSplitF])
    | c :: rest =>
      have hrest : rest.length ≤ m := by
        simp only [List.length_cons] at hs
        omega
      by_cases hc : isSpaceChar c = true
      · rw [wsSplit_cons_space c rest hc] at hw
        obtain ⟨h1, h2, h3⟩ := ih rest hrest w hw
        exact ⟨h1, h2, fun d hd => List.mem_cons_of_mem c (h3 d hd)⟩
      · rw [wsSplit_cons_word c rest (by simpa using hc)] at hw
        rcases List.mem_cons.mp hw with hweq | hwmem
        · subst hweq
          refine ⟨?_, ?_, ?_⟩
          · rw [List.takeWhile_cons, if_pos (by simp [nonSpace, hc])]
            simp
          · rw [List.all_eq_true]
            exact fun d hd => List.mem_takeWhile_imp hd
          · exact fun d hd => (List.takeWhile_prefix nonSpace).subset hd
        · have hdroplen : ((c :: rest).dropWhile nonSpace).length ≤ m := by
            rw [List.dropWhile_cons, if_pos (by simp [nonSpace, hc])]
            exact le_trans (List.dropWhile_suffix nonSpace).sublist.length_le hrest
          obtain ⟨h1, h2, h3⟩ := ih _ hdroplen w hwmem
          exact ⟨h1, h2, fun d hd =>
            (List.dropWhile_suffix nonSpace).sublist.subset (h3 d hd)⟩

/-- Characters of a space-join come from the words or are spaces. -/
theorem mem_joinSp : ∀ (xs : List (List Char)) (c : Char), c ∈ joinSp xs →
    (∃ w ∈ xs, c ∈ w) ∨ c = ' ' := by
  intro xs
  induction xs with
  | nil => intro c hc; exact absurd hc (by simp [joinSp])
  | cons w ws ih =>
    intro c hc
    cases ws with
    | nil => exact Or.inl ⟨w, by simp, hc⟩
    | cons x t =>
      show _ ∨ _
      have hc' : c ∈ w ++ ' ' :: joinSp (x :: t) := hc
      rcases List.mem_append.mp hc' with hw | hrest
      · exact Or.inl ⟨w, by simp, hw⟩
      · rcases List.mem_cons.mp hrest with hsp | hj
        · exact Or.inr hsp
        · rcases ih c hj with ⟨u, hu, hcu⟩ | hsp
          · exact Or.inl ⟨u, by simp [hu], hcu⟩
          · exact Or.inr hsp

/-- Lowercase letters are not whitespace. -/
theorem lowerAlpha_nonSpace (c : Char) (h : isLowerAlpha c = true) : nonSpace c = true := by
  simp only [isLowerAlpha, Bool.and_eq_true, decide_eq_true_eq] at h
  simp only [nonSpace, isSpaceChar, Bool.not_eq_true', Bool.or_eq_false_iff,
    decide_eq_false_iff_not]
  omega

/-- Lowercase letters and whitespace survive the punctuation filter. -/
theorem goodLA_wordOrSpace (c : Char) (h : goodLA c = true) :
    (isWordChar c || isSpaceChar c) = true := by
  rcases Bool.or_eq_true_iff.mp h with hl | hs
  · simp [isWordChar, hl]
  · simp [hs]

/-- Lowercase letters and whitespace are not emoji. -/
theorem goodLA_notEmoji (c : Char) (h : goodLA c = true) : (!isEmojiChar c) = true := by
  simp only [goodLA, isLowerAlpha, isSpaceChar, Bool.or_eq_true_iff, Bool.and_eq_true,
    decide_eq_true_eq] at h
  simp only [isEmojiChar, Bool.not_eq_true', Bool.or_eq_false_iff, Bool.and_eq_false_iff,
    decide_eq_false_iff_not, not_le]
  omega

/-- Lowercase letters and whitespace are none of the six padding marks. -/
theorem goodLA_not_punct6 (c : Char) (h : goodLA c = true) :
    (c = '.' || c = ',' || c = '!' || c = '?' || c = ';' || c = ':') = false := by
  cases hp : (c = '.' || c = ',' || c = '!' || c = '?' || c = ';' || c = ':') with
  | false => rfl
  | true =>
    exfalso
    have hbad : goodLA c = false := by
      rcases Bool.or_eq_true_iff.mp hp with h5 | h6
      · rcases Bool.or_eq_true_iff.mp h5 with h4 | h5'
        · rcases Bool.or_eq_true_iff.mp h4 with h3 | h4'
          · rcases Bool.or_eq_true_iff.mp h3 with h2 | h3'
            · rcases Bool.or_eq_true_iff.mp h2 with h1 | h2'
              · rw [show c = '.' from by simpa using h1]; decide
              · rw [show c = ',' from by simpa using h2']; decide
            · rw [show c = '!' from by simpa using h3']; decide
          · rw [show c = '?' from by simpa using h4']; decide
        · rw [show c = ';' from by simpa using h5']; decide
      · rw [show c = ':' from by simpa using h6]; decide
    rw [hbad] at h
    exact absurd h (by simp)

/-- Lowercasing fixes lowercase letters and whitespace. -/
theorem toLower_eq_self_of_goodLA (c : Char) (h : goodLA c = true) :
    Char.toLower c = c := by
  simp only [goodLA, isLowerAlpha, isSpaceChar, Bool.or_eq_true_iff, Bool.and_eq_true,
    decide_eq_true_eq] at h
  rw [Char.toLower]
  exact if_neg (by omega)

/-- Lowercasing is the identity on all-`goodLA` text. -/
theorem lowerList_eq_self (s : List Char) (hs : s.all goodLA = true) :
    lowerList s = s := by
  rw [lowerList]
  have : s.map Char.toLower = s.map id := List.map_congr_left (fun c hc => by
    rw [List.all_eq_true] at hs
    exact toLower_eq_self_of_goodLA c (hs c hc))
  rw [this, List.map_id]

/-- Padding is the identity on all-`goodLA` text. -/
theorem padPunct_eq_self (s : List Char) (hs : ∀ c ∈ s, goodLA c = true) :
    padPunct s = s := by
  rw [padPunct]
  induction s with
  | nil => rfl
  | cons c rest ih =>
    rw [List.flatMap_cons, goodLA_not_punct6 c (hs c (by simp))]
    show [c] ++ _ = _
    rw [List.singleton_append, ih (fun d hd => hs d (by simp [hd]))]

/-- On all-`goodLA` text the normalizer collapses to: lowercase, split on
whitespace, drop fallback stopwords, strip a trailing `s`, and re-join — all
URL/email/phone/contraction/currency/punctuation/emoji stripping is inert. -/
theorem preprocessList_goodLA (s : List Char) (hs : (lowerList s).all goodLA = true) :
    preprocessList fallbackRes true true s =
      joinSp (((wsSplit (lowerList s)).filter
        (fun w => !(fallbackStopChars.contains w))).map simpleLemma) := by
  have hsmem : ∀ c ∈ lowerList s, goodLA c = true := by
    rw [List.all_eq_true] at hs
    exact hs
  have hurl : subAll urlM [] (lowerList s) = lowerList s :=
    subAll_eq_self _ _ goodLA urlM_eq_none _ hs
  have hemail : subAll emailM [] (lowerList s) = lowerList s :=
    subAll_eq_self _ _ goodLA emailM_eq_none _ hs
  have hphone : subAll phoneM [] (lowerList s) = lowerList s :=
    subAll_eq_self _ _ goodLA phoneM_eq_none _ hs
  have hcontr : applyContractions (lowerList s) = lowerList s :=
    applyContractions_eq_self _ hs
  have hcurr : subAll currencyM [] (lowerList s) = lowerList s :=
    subAll_eq_self _ _ goodLA currencyM_eq_none _ hs
  have hpunct : (lowerList s).filter (fun c => isWordChar c || isSpaceChar c) = lowerList s :=
    List.filter_eq_self.mpr (fun c hc => goodLA_wordOrSpace c (hsmem c hc))
  have hemoji : (lowerList s).filter (fun c => !isEmojiChar c) = lowerList s :=
    List.filter_eq_self.mpr (fun c hc => goodLA_notEmoji c (hsmem c hc))
  have hwsmem := wsSplit_mem (lowerList s).length (lowerList s) (le_refl _)
  have hJmem : ∀ c ∈ joinSp (wsSplit (lowerList s)), goodLA c = true := by
    intro c hc
    rcases mem_joinSp _ c hc with ⟨w, hw, hcw⟩ | hsp
    · exact hsmem c ((hwsmem w hw).2.2 c hcw)
    · subst hsp; decide
  have hpad : padPunct (joinSp (wsSplit (lowerList s))) = joinSp (wsSplit (lowerList s)) :=
    padPunct_eq_self _ hJmem
  have hsplitJ : wsSplit (joinSp (wsSplit (lowerList s))) = wsSplit (lowerList s) := by
    rw [wsSplit_joinSp _ (fun w hw => (hwsmem w hw).2.1)]
    exact List.filter_eq_self.mpr (fun w hw => by
      match w, (hwsmem w hw).1 with
      | a :: l, _ => rfl
      | [], hne => exact absurd rfl hne)
  simp only [preprocessList, fallbackRes, stopList, lemmaFn, Option.getD, if_true]
  rw [hurl, hemail, hphone, hcontr, hcurr, hpunct, hemoji, hpad, hsplitJ]

/-- Claim C8, amended: already-normalized text made of non-empty lowercase
alphabetic tokens, none of which is a fallback stopword or ends in `s`, is a
fixed point of the normalizer under the fallback resources.  (The trailing-s
restriction is forced: the fallback lemmatizer re-stems on every pass, see
the counterexample.) -/
theorem C8_idempotence_amended (toks : List (List Char))
    (h : ∀ w ∈ toks, w ≠ [] ∧ w.all isLowerAlpha = true ∧ w.getLast? ≠ some 's' ∧
          fallbackStopChars.contains w = false) :
    preprocess_text fallbackRes (PyInput.str (String.mk (joinSp toks))) true true =
      String.mk (joinSp toks) := by
  have hgood : (joinSp toks).all goodLA = true := by
    rw [List.all_eq_true]
    intro c hc
    rcases mem_joinSp toks c hc with ⟨w, hw, hcw⟩ | hsp
    · have hall := (h w hw).2.1
      rw [List.all_eq_true] at hall
      simp [goodLA, hall c hcw]
    · subst hsp; decide
  have hlow : lowerList (joinSp toks) = joinSp toks := lowerList_eq_self _ hgood
  show String.mk (preprocessList fallbackRes true true (joinSp toks)) = _
  rw [preprocessList_goodLA _ (by rw [hlow]; exact hgood), hlow]
  have hsplit : wsSplit (joinSp toks) = toks := by
    rw [wsSplit_joinSp toks (fun w hw => by
      have hall := (h w hw).2.1
      rw [List.all_eq_true] at hall ⊢
      exact fun c hc => lowerAlpha_nonSpace c (hall c hc))]
    exact List.filter_eq_self.mpr (fun w hw => by
      match w, (h w hw).1 with
      | a :: l, _ => rfl
      | [], hne => exact absurd rfl hne)
  rw [hsplit]
  have hstop : toks.filter (fun w => !(fallbackStopChars.contains w)) = toks :=
    List.filter_eq_self.mpr (fun w hw => by rw [(h w hw).2.2.2]; rfl)
  rw [hstop]
  have hmap : toks.map simpleLemma = toks := by
    have hcongr : toks.map simpleLemma = toks.map id := List.map_congr_left (fun w hw => by
      rw [simpleLemma, if_neg (h w hw).2.2.1]
      rfl)
    rw [hcongr, List.map_id]
  rw [hmap]

/-- Witness for the amended C8: "hello world" is a fixed point. -/
theorem C8_idempotence_amended_witness :
    preprocess_text fallbackRes
        (PyInput.str (String.mk (joinSp ["hello".toList, "world".toList]))) true true =
      String.mk (joinSp ["hello".toList, "world".toList]) :=
  C8_idempotence_amended ["hello".toList, "world".toList] (by decide)

/-- Lowercasing sends ASCII letters and whitespace into lowercase letters
and whitespace. -/
theorem toLower_good_of_asciiAlphaSpace (c : Char)
    (h : (isAsciiAlpha c || isSpaceChar c) = true) : goodLA (Char.toLower c) = true := by
  by_cases hc : c.toNat ≥ 65 ∧ c.toNat ≤ 90
  · rw [Char.toLower, if_pos hc]
    have hv : (c.toNat + 32).isValidChar := Or.inl (by omega)
    have htn : (Char.ofNat (c.toNat + 32)).toNat = c.toNat + 32 := by
      rw [Char.ofNat, dif_pos hv, Char.ofNatAux]
      simp [Char.toNat, UInt32.toNat]
    simp only [goodLA, isLowerAlpha, Bool.or_eq_true_iff, Bool.and_eq_true,
      decide_eq_true_eq, htn]
    left
    omega
  · rw [Char.toLower, if_neg hc]
    rcases Bool.or_eq_true_iff.mp h with ha | hs
    · have ha' : ((65 ≤ c.toNat && c.toNat ≤ 90) || isLowerAlpha c) = true := by
        rwa [isAsciiAlpha] at ha
      rcases Bool.or_eq_true_iff.mp ha' with hu | hl
      · exfalso
        simp only [Bool.and_eq_true, decide_eq_true_eq] at hu
        exact hc ⟨hu.1, hu.2⟩
      · simp [goodLA, hl]
    · simp [goodLA, hs]

/-- Claim C7, amended: for raw inputs made only of ASCII letters and
whitespace — no punctuation, contractions, digits or symbols — every token
of the normalizer's output (under the fallback resources) is the lemma of a
whitespace-separated word of the lowercased source, so the source invariant
holds.  (The restriction is forced: contraction expansion and punctuation
stripping introduce tokens absent from the source, see the
counterexample.) -/
theorem C7_source_invariant_amended (s : String)
    (h : ∀ c ∈ s.toList, (isAsciiAlpha c || isSpaceChar c) = true) :
    sourceInvariantHolds fallbackRes s := by
  have hgood : (lowerList s.toList).all goodLA = true := by
    rw [List.all_eq_true]
    intro c hc
    rw [lowerList] at hc
    rcases List.mem_map.mp hc with ⟨d, hd, rfl⟩
    exact toLower_good_of_asciiAlphaSpace d (h d hd)
  intro tok htok
  right
  have e1 : preprocess_text fallbackRes (PyInput.str s) true true =
      String.mk (preprocessList fallbackRes true true s.toList) := rfl
  have e2 : ∀ L : List Char, (String.mk L).toList = L := fun _ => rfl
  have hout : (preprocess_text fallbackRes (PyInput.str s) true true).toList =
      joinSp (((wsSplit (lowerList s.toList)).filter
        (fun w => !(fallbackStopChars.contains w))).map simpleLemma) := by
    rw [e1, e2, preprocessList_goodLA s.toList hgood]
  rw [outputTokens, hout] at htok
  have hwsmem := wsSplit_mem (lowerList s.toList).length _ (le_refl _)
  have htoks3sf : ∀ u ∈ ((wsSplit (lowerList s.toList)).filter
      (fun w => !(fallbackStopChars.contains w))).map simpleLemma,
      u.all nonSpace = true := by
    intro u hu
    rcases List.mem_map.mp hu with ⟨w, hw, rfl⟩
    have hwmem : w ∈ wsSplit (lowerList s.toList) := List.mem_of_mem_filter hw
    have hwsf := (hwsmem w hwmem).2.1
    rw [simpleLemma]
    split
    · rw [List.all_eq_true] at hwsf ⊢
      exact fun c hc => hwsf c ((List.dropLast_sublist w).subset hc)
    · exact hwsf
  rw [wsSplit_joinSp _ htoks3sf] at htok
  have htok2 : tok ∈ ((wsSplit (lowerList s.toList)).filter
      (fun w => !(fallbackStopChars.contains w))).map simpleLemma :=
    List.mem_of_mem_filter htok
  rcases List.mem_map.mp htok2 with ⟨w, hw, rfl⟩
  exact ⟨w, List.mem_of_mem_filter hw, rfl⟩

/-- Witness for the amended C7: "Winter Coats" normalizes to "winter coat",
whose tokens are lemmas of the source words. -/
theorem C7_source_invariant_amended_witness :
    sourceInvariantHolds fallbackRes "Winter Coats" :=
  C7_source_invariant_amended "Winter Coats" (by decide)
